import Mathlib

/-!
# Verification of the tosminer coordination layer

A shallow embedding, in Lean 4, of the correctness-relevant parts of the
tosminer source tree (`src/core/Types.h`, `src/core/WorkPackage.h`,
`src/core/Miner.cpp`, `src/core/Farm.cpp`, `src/stratum/StratumClient.cpp`,
`src/toshash/TosHash.cpp`, `src/cpu/CPUMiner.cpp`), together with theorems
about the embedded definitions.

Machine integers (`uint64_t`, `uint8_t`, `__uint128_t`) are embedded as `Nat`
with explicit `% 2^w` reductions exactly where the C++ code can overflow or
truncate.  Byte arrays (`Hash256`, the 112-byte header) are `List Nat` whose
elements are bytes.  The `double` difficulty handed to
`StratumClient::difficultyToTarget` is embedded as a rational number: every
operation the function performs on it (sign / ordering comparisons,
multiplication by the power of two 2^32, truncation to an unsigned integer)
is exact on the IEEE-754 doubles the C++ code manipulates, so the rational
model is faithful on every actual input.

The Blake3 primitive used by TosHash V3 is an external library (the repo
merely links `<blake3.h>`), and none of the properties below depend on actual
hash values; functions that call the hasher are therefore parameterised by
the 112-byte-input-to-32-byte-output hash function `H`, standing for
`TosHash::hash`.  Theorems quantify over `H`, hence hold in particular for
the real TosHash V3 instance.
-/

namespace TosMiner

/-- 2^64, the modulus of `uint64_t` arithmetic. -/
def U64 : ℕ := 2 ^ 64

/-- `UINT64_MAX`. -/
def U64MAX : ℕ := 2 ^ 64 - 1

/-- Big-endian value of a byte list: `Types.h` hashes are compared and the
long-division in `difficultyToTarget` emits digits most-significant first. -/
def valBE (l : List ℕ) : ℕ := l.foldl (fun a b => a * 256 + b) 0

/-- Little-endian value of a byte list (first byte least significant). -/
def valLE : List ℕ → ℕ
  | [] => 0
  | b :: bs => b + 256 * valLE bs

/-- The loop `for i in 0..n-1: out[i] = (v >> (i*8)) & 0xFF` of
`WorkPackage::setNonce` / `Miner::verifySolution` / `TosHash::search`:
`n` little-endian bytes of `v`. -/
def leBytes (n v : ℕ) : List ℕ := (List.range n).map fun i => v / 256 ^ i % 256

/-- The loop `for i in 0..n-1: out[i] = (v >> ((n-1-i)*8)) & 0xFF`
(big-endian byte extraction, used for the submit nonce hex). -/
def beBytes (n v : ℕ) : List ℕ := (List.range n).map fun i => v / 256 ^ (n - 1 - i) % 256

/-- `meetsTarget` from `src/core/Types.h` (lines 52–58): byte-wise big-endian
comparison, first differing byte decides, equality meets the target. -/
def meetsTarget : List ℕ → List ℕ → Bool
  | a :: as, b :: bs =>
      if a < b then true
      else if a > b then false
      else meetsTarget as bs
  | _, _ => true

/-- `WorkPackage` from `src/core/WorkPackage.h`: the fields the verified
operations consult.  (`height`, `seedHash`, `headerHash`, `receivedTime` are
logging/staleness-only and are omitted.) -/
structure WorkPackage where
  jobId : String
  header : List ℕ
  target : List ℕ
  startNonce : ℕ
  extraNonce1 : String
  extraNonce2Size : ℕ
  totalDevices : ℕ
  valid : Bool
deriving DecidableEq

/-- The default-constructed `WorkPackage` (`WorkPackage()` in the source):
invalid, empty job, zero header/target, `extraNonce2Size = 4`,
`totalDevices = 1`. -/
def WorkPackage.mkDefault : WorkPackage :=
  { jobId := ""
    header := List.replicate 112 0
    target := List.replicate 32 0
    startNonce := 0
    extraNonce1 := ""
    extraNonce2Size := 4
    totalDevices := 1
    valid := false }

/-- `WorkPackage::MAX_DEVICES`. -/
def MAX_DEVICES : ℕ := 256

/-- `WorkPackage::getDeviceStartNonce` (`WorkPackage.h` lines 120–146).
`totalDevices <= 1` returns `startNonce` unchanged; otherwise the device
count is clamped to 256, the per-device space is `UINT64_MAX / clamped`
(C++ integer division), the device index is clamped below the clamped count,
and an addition that would overflow 64 bits is replaced by
`UINT64_MAX - spacePerDevice + 1`. -/
def WorkPackage.getDeviceStartNonce (wp : WorkPackage) (deviceIndex : ℕ) : ℕ :=
  if wp.totalDevices ≤ 1 then wp.startNonce
  else
    let clampedDevices := if wp.totalDevices > MAX_DEVICES then MAX_DEVICES else wp.totalDevices
    let spacePerDevice := U64MAX / clampedDevices
    let clampedIndex := if deviceIndex ≥ clampedDevices then clampedDevices - 1 else deviceIndex
    let deviceOffset := spacePerDevice * clampedIndex
    if wp.startNonce > U64MAX - deviceOffset then U64MAX - spacePerDevice + 1
    else wp.startNonce + deviceOffset

/-- `Solution` from `src/core/Types.h` (lines 69–78).  The unused `mixHash`
compatibility field is omitted. -/
structure Solution where
  nonce : ℕ
  hash : List ℕ
  deviceIndex : ℕ
deriving DecidableEq

/-- The default-constructed `Solution()`: nonce 0, zero hash, device 0.  This
is the value `TosHash::search` returns to signal "no solution". -/
def Solution.mkDefault : Solution :=
  { nonce := 0, hash := List.replicate 32 0, deviceIndex := 0 }

/-- The counter fields of `DeviceHealth` (`src/core/Miner.h` lines 92–131)
that the verification path updates.  The time- and hash-rate-based fields
(`status`, `peakHashRate`, `lastSolutionTime`, …) depend on wall-clock time
and are outside the embedding. -/
structure DeviceHealth where
  validSolutions : ℕ
  invalidSolutions : ℕ
  duplicateSolutions : ℕ
  hardwareErrors : ℕ
deriving DecidableEq

/-- All-zero health record (fresh `DeviceHealth`). -/
def DeviceHealth.mkDefault : DeviceHealth :=
  { validSolutions := 0, invalidSolutions := 0, duplicateSolutions := 0, hardwareErrors := 0 }

/-- The per-worker state consulted and updated by `Miner::verifySolution` and
`Miner::setWork`: the worker index, its current work, the submitted-nonce
cache (`std::unordered_set<uint64_t> m_submittedNonces`, embedded as a
duplicate-free list via `List.insert`), and the health counters. -/
structure MinerState where
  index : ℕ
  work : WorkPackage
  submittedNonces : List ℕ
  health : DeviceHealth
deriving DecidableEq

/-- `Miner::MAX_SUBMITTED_NONCES` (`Miner.h` line 350). -/
def MAX_SUBMITTED_NONCES : ℕ := 1000

/-- `Miner::recordSubmittedNonce` (`Miner.cpp` lines 245–255): when the cache
has reached the cap it is cleared wholesale, then the nonce is inserted
(set-insert: no-op when already present). -/
def recordSubmittedNonce (cache : List ℕ) (nonce : ℕ) : List ℕ :=
  (if cache.length ≥ MAX_SUBMITTED_NONCES then [] else cache).insert nonce

/-- `Miner::setWork` (`Miner.cpp` lines 62–77): store the new work and flush
the submitted-nonce cache exactly when the job id changed.  (The `m_newWork`
flag set at the end is the mine-loop handshake and is not modelled.) -/
def minerSetWork (st : MinerState) (w : WorkPackage) : MinerState :=
  let jobChanged := w.jobId ≠ st.work.jobId
  { st with
    work := w
    submittedNonces := if jobChanged then [] else st.submittedNonces }

/-- The 112-byte hash input `Miner::verifySolution` / `TosHash::search`
build: the work header with the nonce written little-endian into the last
8 bytes. -/
def withNonce (header : List ℕ) (nonce : ℕ) : List ℕ :=
  header.take 104 ++ leBytes 8 nonce

/-- Result of one `Miner::verifySolution` call: the returned `bool`, the
solution handed to the solution callback (if any), and the post-state. -/
structure VerifyResult where
  ok : Bool
  emitted : Option Solution
  post : MinerState
deriving DecidableEq

/-- `Miner::verifySolution` (`Miner.cpp` lines 154–222), parameterised by the
hash function `H` standing for `TosHash::hash`.  In source order: reject
invalid work; reject duplicates (counting `duplicateSolutions`); when
`totalDevices > 1` reject nonces outside the device range (note: the range
size uses the *unclamped* `totalDevices`, and no health counter is touched);
otherwise hash, and either emit a verified solution (recording the nonce and
`validSolutions`) or count an `invalidSolutions`. -/
def verifySolutionRun (H : List ℕ → List ℕ) (st : MinerState) (nonce : ℕ) : VerifyResult :=
  let work := st.work
  if !work.valid then ⟨false, none, st⟩
  else if nonce ∈ st.submittedNonces then
    ⟨false, none,
      { st with health := { st.health with
          duplicateSolutions := st.health.duplicateSolutions + 1 } }⟩
  else
    let deviceStart := work.getDeviceStartNonce st.index
    let rangeSize := U64MAX / work.totalDevices
    let deviceEnd := (deviceStart + rangeSize) % U64
    if work.totalDevices > 1 ∧ (nonce < deviceStart ∨ (deviceEnd > deviceStart ∧ nonce ≥ deviceEnd))
    then ⟨false, none, st⟩
    else
      let hash := H (withNonce work.header nonce)
      if meetsTarget hash work.target then
        ⟨true, some ⟨nonce, hash, st.index⟩,
          { st with
            submittedNonces := recordSubmittedNonce st.submittedNonces nonce
            health := { st.health with validSolutions := st.health.validSolutions + 1 } }⟩
      else
        ⟨false, none,
          { st with health := { st.health with
              invalidSolutions := st.health.invalidSolutions + 1 } }⟩

/-- `TosHash::search` (`TosHash.cpp` lines 131–151), parameterised by the
hash function `H`: hash the header-with-nonce, return `Solution(nonce, hash)`
when it meets the target and the default `Solution()` otherwise. -/
def search (H : List ℕ → List ℕ) (work : WorkPackage) (nonce : ℕ) : Solution :=
  let hashResult := H (withNonce work.header nonce)
  if meetsTarget hashResult work.target then ⟨nonce, hashResult, 0⟩
  else Solution.mkDefault

/-- The candidate-handling step of `CPUMiner::mineLoop` (`CPUMiner.cpp` lines
96–113): run `search`; only when the returned nonce is non-zero is the
candidate verified (and possibly emitted) via `Miner::verifySolution`. -/
def cpuHandleCandidate (H : List ℕ → List ℕ) (st : MinerState) (nonce : ℕ) :
    Option Solution × MinerState :=
  let sol := search H st.work nonce
  if sol.nonce ≠ 0 then
    let r := verifySolutionRun H st sol.nonce
    (r.emitted, r.post)
  else (none, st)

/-- Nonces emitted upward while a worker processes a list of candidate
nonces through `Miner::verifySolution`, threading the worker state. -/
def runNonces (H : List ℕ → List ℕ) (st : MinerState) : List ℕ → List ℕ
  | [] => []
  | n :: rest =>
      let r := verifySolutionRun H st n
      match r.emitted with
      | some s => s.nonce :: runNonces H r.post rest
      | none => runNonces H r.post rest

/-- A concrete stand-in for the hash function: ignores its input and returns
the all-zero 32-byte hash.  Used to instantiate `H` in closed witnesses and
counterexamples (their properties do not depend on hash values). -/
def H0 : List ℕ → List ℕ := fun _ => List.replicate 32 0

/-- A valid single-device work package whose all-0xFF target accepts every
hash; job id `"J"`. -/
def workC3 : WorkPackage :=
  { WorkPackage.mkDefault with valid := true, target := List.replicate 32 255, jobId := "J" }

/-- The worker state reached by one `verifySolution` call. -/
def stepState (H : List ℕ → List ℕ) (st : MinerState) (n : ℕ) : MinerState :=
  (verifySolutionRun H st n).post

/-- The worker state after processing a list of candidate nonces. -/
def stateAfter (H : List ℕ → List ℕ) (st : MinerState) (L : List ℕ) : MinerState :=
  L.foldl (stepState H) st

/-- A fresh worker on `workC3`. -/
def minerStC3 : MinerState := ⟨0, workC3, [], DeviceHealth.mkDefault⟩

/-- A second concrete hash function (all bytes 1), used to witness that a
rejection happens without consulting the hasher. -/
def H1 : List ℕ → List ℕ := fun _ => List.replicate 32 1

/-- The concrete work package of the C2 partition scenario: start nonce 100,
four devices. -/
def wp100 : WorkPackage :=
  { WorkPackage.mkDefault with startNonce := 100, totalDevices := 4 }

/-- A worker holding `workC3` whose cache already contains nonce 7. -/
def stC3dup : MinerState := ⟨0, workC3, [7], DeviceHealth.mkDefault⟩

/-- A worker with index 0 on a four-device job (start nonce 0, permissive
target): its allocated range is `[0, (2^64-1)/4)`, so nonce `2^62` is out of
range. -/
def stC7 : MinerState :=
  ⟨0, { WorkPackage.mkDefault with
          valid := true
          target := List.replicate 32 255
          totalDevices := 4 }, [], DeviceHealth.mkDefault⟩

/-- The dividend byte stream of the fixed-point division in
`StratumClient::difficultyToTarget` (lines 1172–1174): 36 big-endian bytes
with 0xFF at positions 4 and 5 — the value `0xFFFF · 2^240`, i.e. the base
target scaled by `2^32`. -/
def ddBytes : List ℕ := (List.range 36).map fun i => if i = 4 ∨ i = 5 then 255 else 0

/-- The schoolbook base-256 long-division loop of
`StratumClient::difficultyToTarget` (lines 1170–1187): digits are produced
most-significant first; each digit is clamped at 255 exactly as in the
source (`(q > 255) ? 255 : q`). Returns the digit list and the final
remainder. -/
def longDiv (divisor : ℕ) : List ℕ → ℕ → List ℕ × ℕ
  | [], rem => ([], rem)
  | b :: bs, rem =>
      let r := rem * 256 + b
      let q := r / divisor
      let p := longDiv divisor bs (r % divisor)
      ((if q > 255 then 255 else q) :: p.1, p.2)

/-- The fixed base target `0x00000000FFFF0000…00` (difficulty-1 target;
bytes 4 and 5 are 0xFF). -/
def baseTarget : List ℕ := (List.range 32).map fun i => if i = 4 ∨ i = 5 then 255 else 0

/-- Truncation toward zero of the nonnegative product `d · 2^32`, the
semantics of `static_cast<__uint128_t>(difficulty * 4294967296.0)` in
`difficultyToTarget` (line 1167): the double multiplication by the power of
two `2^32` is exact, and the cast truncates.  For `0 ≤ d` this equals
`⌊d · 2^32⌋` (proved in `scaledDiff_eq_floor` below), computed here directly
on the reduced fraction. -/
def scaledDiff (d : ℚ) : ℕ := d.num.toNat * 4294967296 / d.den

/-- `StratumClient::difficultyToTarget` (lines 1110–1226), 128-bit path, on
the exact rational value of the incoming double.  Every double operation the
function performs is exact (sign/ordering comparisons, multiplication by the
power of two `2^32`, truncation to an unsigned integer), so ℚ is a faithful
model of the actual inputs.  `d ≤ 0` yields the all-0xFF target; `d < 1` the
fixed base target; `d` above `10^15` is clamped; the scaled divisor is
`⌊d · 2^32⌋` (forced to 1 if zero); the 36 quotient digits are emitted at
output positions `i - 4` (the first four are dropped); an all-zero result
gets byte 31 forced to 1. -/
def difficultyToTarget (d : ℚ) : List ℕ :=
  if d ≤ 0 then List.replicate 32 255
  else if d < 1 then baseTarget
  else
    let dc := if d > 10 ^ 15 then ((10 : ℚ) ^ 15) else d
    let diffScaled := scaledDiff dc
    let divisor := if diffScaled = 0 then 1 else diffScaled
    let t := ((longDiv divisor ddBytes 0).1).drop 4
    if t.all (· = 0) then t.set 31 1 else t

/-- The counterexample difficulty `1 + 2^-40`: an IEEE-754
double-representable value strictly between 1 and 2 whose product with
`2^32` is not an integer. -/
def d0 : ℚ := mkRat (2 ^ 40 + 1) (2 ^ 40)

/-- Lowercase hex digit character, as `snprintf("%02x")` and `std::hex`
produce ('0'–'9', 'a'–'f'). -/
def hexDigit (n : ℕ) : Char :=
  if n < 10 then Char.ofNat (48 + n) else Char.ofNat (87 + n)

/-- One byte as exactly two lowercase hex characters (zero-padded, as
`setw(2)`/`setfill('0')` force). -/
def byteHex (b : ℕ) : List Char := [hexDigit (b / 16), hexDigit (b % 16)]

/-- The extranonce2 hex field built by `StratumClient::submitSolution`
(`StratumClient.cpp` lines 226–234): the wrapping `uint64_t` difference
`solution.nonce - work.startNonce`, serialized little-endian using exactly
`extraNonce2Size` bytes of two hex characters each. -/
def submitEn2Hex (size nonce startNonce : ℕ) : List Char :=
  ((leBytes size ((nonce % U64 + U64 - startNonce % U64) % U64)).map byteHex).flatten

/-- The nonce hex field built by `StratumClient::submitSolution` (lines
238–242): the 64-bit nonce as 8 big-endian bytes, 16 hex characters. -/
def submitNonceHex (nonce : ℕ) : List Char :=
  ((beBytes 8 (nonce % U64)).map byteHex).flatten

/-- Decode a hex string two characters at a time into its byte list
(lowercase hex; inverse of `byteHex` concatenation). -/
def hexVal (c : Char) : ℕ := if c.toNat ≥ 97 then c.toNat - 87 else c.toNat - 48

/-- Byte list recovered from a hex character string. -/
def decodePairs : List Char → List ℕ
  | c1 :: c2 :: rest => (hexVal c1 * 16 + hexVal c2) :: decodePairs rest
  | _ => []

/-- `MAX_RECONNECT_ATTEMPTS` (`StratumClient.h` line 470). -/
def MAX_RECONNECT_ATTEMPTS : ℕ := 10

/-- The session state consulted and updated by
`StratumClient::handleReconnect`: run flag, auto-reconnect knob, consecutive
attempt counter, current pool index, number of configured pools, and the
base reconnect delay (`m_reconnectDelay`, default 5 s). -/
structure ReconnState where
  running : Bool
  autoReconnect : Bool
  reconnectAttempts : ℕ
  currentPoolIndex : ℕ
  numPools : ℕ
  reconnectDelay : ℕ
deriving DecidableEq

/-- What `handleReconnect` does after bookkeeping: nothing (not running /
auto-reconnect off), stop the session, or schedule a retry after the given
delay in seconds. -/
inductive ReconnAction where
  | idle
  | stopped
  | retry (delaySecs : ℕ)
deriving DecidableEq

/-- `StratumClient::handleReconnect` (`StratumClient.cpp` lines 1032–1085),
socket/pending-request cleanup elided: increment the attempt counter; if the
incremented count has reached `MAX_RECONNECT_ATTEMPTS / 2` and more than one
pool is configured, advance to the next pool and reset the counter; if the
count has reached `MAX_RECONNECT_ATTEMPTS`, stop; otherwise schedule a retry
after `reconnectDelay · 2^min(count, 5)` seconds. -/
def handleReconnect (st : ReconnState) : ReconnState × ReconnAction :=
  if ¬ (st.running ∧ st.autoReconnect) then (st, ReconnAction.idle)
  else
    let a1 := st.reconnectAttempts + 1
    let switched := a1 ≥ MAX_RECONNECT_ATTEMPTS / 2 ∧ st.numPools > 1
    let a2 := if switched then 0 else a1
    let p2 := if switched then (st.currentPoolIndex + 1) % st.numPools else st.currentPoolIndex
    if a2 ≥ MAX_RECONNECT_ATTEMPTS then
      ({ st with reconnectAttempts := a2, currentPoolIndex := p2, running := false },
        ReconnAction.stopped)
    else
      ({ st with reconnectAttempts := a2, currentPoolIndex := p2 },
        ReconnAction.retry (st.reconnectDelay * 2 ^ min a2 5))

/-- The retry delays observed over up to `k` consecutive failures (the trace
stops early if the session stops). -/
def delaysFrom (st : ReconnState) : ℕ → List ℕ
  | 0 => []
  | k + 1 =>
      match handleReconnect st with
      | (st', ReconnAction.retry d) => d :: delaysFrom st' k
      | _ => []

/-- A freshly connected single-pool session with base delay `b`
(`connect` resets `m_reconnectAttempts` to 0). -/
def reconnInit (b : ℕ) : ReconnState :=
  { running := true, autoReconnect := true, reconnectAttempts := 0,
    currentPoolIndex := 0, numPools := 1, reconnectDelay := b }

/-- The farm state consulted and updated by `Farm::setWork`
(`src/core/Farm.cpp`): the ordered worker count, the failed-index set, and
the current/previous work fallback pair. -/
structure FarmState where
  numMiners : ℕ
  failed : Finset ℕ
  currentWork : WorkPackage
  previousWork : WorkPackage
deriving DecidableEq

/-- `Farm::setWork` (`Farm.cpp` lines 222–265): with zero active
(non-failed) workers it logs and returns with nothing changed; otherwise the
distributed copy gets `totalDevices := active count`, a valid current work is
saved as `previousWork`, the distributed copy becomes `currentWork`, and it
is delivered to exactly the non-failed workers (returned as index/work
pairs, in worker order). -/
def farmSetWork (st : FarmState) (work : WorkPackage) : FarmState × List (ℕ × WorkPackage) :=
  let activeCount := st.numMiners - st.failed.card
  if activeCount = 0 then (st, [])
  else
    let distributedWork := { work with totalDevices := activeCount }
    ({ st with
        previousWork := if st.currentWork.valid then st.currentWork else st.previousWork
        currentWork := distributedWork },
      ((List.range st.numMiners).filter (fun i => i ∉ st.failed)).map fun i =>
        (i, distributedWork))

/-- A one-worker farm whose only worker is failed while a valid current work
is still held (reachable: the worker was failed after the work arrived). -/
def farmStC8 : FarmState :=
  { numMiners := 1, failed := {0},
    currentWork := { WorkPackage.mkDefault with valid := true, jobId := "W" },
    previousWork := WorkPackage.mkDefault }

/-- The target-tracking state of the pool session: the sticky pool-target
flag, the stored target, the difficulty and the current work
(`StratumClient.h`: `m_hasPoolTarget`, `m_target`, `m_difficulty`,
`m_currentWork`). -/
structure StratumTargetState where
  hasPoolTarget : Bool
  target : List ℕ
  difficulty : ℚ
  currentWork : WorkPackage
deriving DecidableEq

/-- The target-relevant effect of `StratumClient::handleMiningNotify`
(`StratumClient.cpp` lines 897–942, 980) on already-parsed input: `work0` is
the rest of the parsed work package and `explicitTarget` the target parsed
from the notification, `none` when the notification carried no target (then
the session's stored target is used).  `m_hasPoolTarget` is set exactly when
a target was sent, in which case the stored target is also updated. -/
def notifyTarget (st : StratumTargetState) (work0 : WorkPackage)
    (explicitTarget : Option (List ℕ)) : StratumTargetState :=
  let work := { work0 with target := explicitTarget.getD st.target }
  { st with
    hasPoolTarget := explicitTarget.isSome
    target := if explicitTarget.isSome then work.target else st.target
    currentWork := work }

/-- `StratumClient::handleSetDifficulty` (lines 997–1030): store the
difficulty, derive its target, and replace the stored target and the valid
current work's target only when no pool-sent target is in force. -/
def handleSetDifficulty (st : StratumTargetState) (d : ℚ) : StratumTargetState :=
  let diffTarget := difficultyToTarget d
  let target2 := if st.hasPoolTarget then st.target else diffTarget
  let work2 := if st.currentWork.valid ∧ ¬ st.hasPoolTarget = true
               then { st.currentWork with target := target2 }
               else st.currentWork
  { st with difficulty := d, target := target2, currentWork := work2 }

/-- A session state with the pool-target flag set. -/
def stratumStC9 : StratumTargetState :=
  { hasPoolTarget := true, target := List.replicate 32 7, difficulty := 1,
    currentWork := { WorkPackage.mkDefault with valid := true, target := List.replicate 32 7 } }

/-! ## Helper lemmas about the worker verification path -/

/-- Splitting a candidate stream: emissions over `L1 ++ L2` are the emissions
over `L1` followed by the emissions over `L2` from the reached state. -/
theorem runNonces_append (H : List ℕ → List ℕ) (st : MinerState) (L1 L2 : List ℕ) :
    runNonces H st (L1 ++ L2) = runNonces H st L1 ++ runNonces H (stateAfter H st L1) L2 := by
  induction L1 generalizing st with
  | nil => simp [runNonces, stateAfter]
  | cons n rest ih =>
      simp only [List.cons_append, runNonces, stateAfter, List.foldl_cons]
      cases (verifySolutionRun H st n).emitted with
      | some s => simp [ih, stepState, stateAfter]
      | none => simp [ih, stepState, stateAfter]

/-- On `workC3` (valid, single device, all-0xFF target) with the constant
hasher, a nonce not yet in the cache is verified, emitted, and recorded. -/
theorem verify_fresh (i : ℕ) (cache : List ℕ) (h : DeviceHealth) (n : ℕ) (hn : n ∉ cache) :
    verifySolutionRun H0 ⟨i, workC3, cache, h⟩ n =
      ⟨true, some ⟨n, List.replicate 32 0, i⟩,
        ⟨i, workC3, recordSubmittedNonce cache n,
          { h with validSolutions := h.validSolutions + 1 }⟩⟩ := by
  simp [verifySolutionRun, workC3, WorkPackage.mkDefault, hn, H0]
  decide

/-- Processing a duplicate-free batch of fresh nonces that fits under the
cache cap emits every nonce and pushes them all into the cache. -/
theorem run_fresh_batch (L : List ℕ) : ∀ (i : ℕ) (cache : List ℕ) (h : DeviceHealth),
    (∀ n ∈ L, n ∉ cache) → cache.length + L.length ≤ 1000 → L.Nodup →
    runNonces H0 ⟨i, workC3, cache, h⟩ L = L ∧
    stateAfter H0 ⟨i, workC3, cache, h⟩ L =
      ⟨i, workC3, L.reverse ++ cache,
        { h with validSolutions := h.validSolutions + L.length }⟩ := by
  induction L with
  | nil => intro i cache h _ _ _; simp [runNonces, stateAfter]
  | cons n rest ih =>
      intro i cache h hfresh hlen hnd
      have hn : n ∉ cache := hfresh n (by simp)
      simp only [List.length_cons] at hlen
      have hrec : recordSubmittedNonce cache n = n :: cache := by
        have hlt : ¬ cache.length ≥ MAX_SUBMITTED_NONCES := by
          simp only [MAX_SUBMITTED_NONCES]; omega
        simp [recordSubmittedNonce, hlt, List.insert, hn]
      have hfresh' : ∀ m ∈ rest, m ∉ n :: cache := by
        intro m hm
        simp only [List.mem_cons, not_or]
        exact ⟨fun e => (List.nodup_cons.mp hnd).1 (e ▸ hm), hfresh m (List.mem_cons_of_mem _ hm)⟩
      have hlen' : (n :: cache).length + rest.length ≤ 1000 := by
        simp only [List.length_cons]; omega
      have ihh := ih i (n :: cache) { h with validSolutions := h.validSolutions + 1 }
        hfresh' hlen' (List.nodup_cons.mp hnd).2
      constructor
      · simp only [runNonces, verify_fresh i cache h n hn, hrec]
        simp only [ihh.1]
      · simp only [stateAfter, List.foldl_cons, stepState, verify_fresh i cache h n hn, hrec]
        have h2 := ihh.2
        simp only [stateAfter] at h2
        rw [h2]
        simp only [List.reverse_cons, List.append_assoc, List.singleton_append,
          List.length_cons, MinerState.mk.injEq, DeviceHealth.mk.injEq]
        repeat' constructor
        all_goals first | trivial | omega

/-- After the cache holds the 1000 nonces `0 … 999`, candidate 1000 triggers
the wholesale clear (and is emitted), after which candidate 0 — already
emitted earlier in the very same job — is emitted a second time. -/
theorem c3_tail_two (h : DeviceHealth) :
    runNonces H0 ⟨0, workC3, (List.range 1000).reverse, h⟩ [1000, 0] = [1000, 0] := by
  have hmem : (1000 : ℕ) ∉ (List.range 1000).reverse := by
    simp [List.mem_reverse, List.mem_range]
  have hrec1 : recordSubmittedNonce (List.range 1000).reverse 1000 = [1000] := by
    have hlen : ((List.range 1000).reverse).length = 1000 := by simp
    simp [recordSubmittedNonce, hlen, MAX_SUBMITTED_NONCES, List.insert]
  simp only [runNonces, verify_fresh 0 (List.range 1000).reverse h 1000 hmem, hrec1]
  simp only [runNonces,
    verify_fresh 0 [1000] { h with validSolutions := h.validSolutions + 1 } 0 (by decide)]

/-- A fresh worker fed the candidates `0, 1, …, 1000, 0` for one fixed job
emits every one of them — including nonce 0 twice. -/
theorem c3_trace :
    runNonces H0 minerStC3 (List.range 1001 ++ [0]) = List.range 1001 ++ [0] := by
  have batch := run_fresh_batch (List.range 1000) 0 [] DeviceHealth.mkDefault
    (by simp) (by simp) (List.nodup_range 1000)
  have hsplit : List.range 1001 ++ [0] = List.range 1000 ++ ([1000] ++ [0]) := by
    rw [show (1001 : ℕ) = 1000 + 1 from rfl, List.range_succ, List.append_assoc]
  rw [hsplit]
  show runNonces H0 ⟨0, workC3, [], DeviceHealth.mkDefault⟩ _ = _
  rw [runNonces_append, batch.1, batch.2, List.append_nil,
      show ([1000] ++ [0] : List ℕ) = [1000, 0] from rfl, c3_tail_two]

/-! ## C1 — verified solutions meet the target -/

/-- C1: every solution emitted by `Miner::verifySolution` carries exactly the
candidate nonce, its hash field is the host-recomputed hash of the current
work's header with the nonce written little-endian into the last 8 bytes,
that hash meets the work target under the byte-wise big-endian comparison,
and no solution is ever emitted for a nonce whose recomputed hash exceeds
the target.  Quantified over the hash function `H`, hence true in particular
of TosHash V3. -/
theorem C1_emitted_solutions_verified :
    (∀ (H : List ℕ → List ℕ) (st : MinerState) (nonce : ℕ) (s : Solution),
      (verifySolutionRun H st nonce).emitted = some s →
      s.nonce = nonce ∧
      s.hash = H (withNonce st.work.header nonce) ∧
      meetsTarget s.hash st.work.target = true)
    ∧ (∀ (H : List ℕ → List ℕ) (st : MinerState) (nonce : ℕ),
      meetsTarget (H (withNonce st.work.header nonce)) st.work.target = false →
      (verifySolutionRun H st nonce).emitted = none) := by
  constructor
  · intro H st nonce s hemit
    simp only [verifySolutionRun] at hemit
    repeat' split at hemit
    all_goals first
      | (simp only [Option.some.injEq] at hemit
         subst hemit
         exact ⟨rfl, rfl, by assumption⟩)
      | simp at hemit
  · intro H st nonce hmt
    simp only [verifySolutionRun]
    repeat' split
    all_goals simp_all

/-- Witness for C1: nonce 5 on a permissive-target single-device work is
emitted, and its hash meets the target. -/
theorem C1_witness :
    (verifySolutionRun H0 minerStC3 5).emitted = some ⟨5, List.replicate 32 0, 0⟩ ∧
    meetsTarget (List.replicate 32 0) minerStC3.work.target = true := by
  refine ⟨by decide, ?_⟩
  exact (C1_emitted_solutions_verified.1 H0 minerStC3 5 ⟨5, List.replicate 32 0, 0⟩
    (by decide)).2.2

/-! ## C2 — nonce-space partitioning -/

/-- Counterexample to C2 as stated: with start nonce 100 and 4 devices the
claim predicts device 1 starts at `100 + ⌊2^64/4⌋·1 = 100 + 2^62`, but
`getDeviceStartNonce` divides `UINT64_MAX = 2^64 - 1` (not `2^64`) by the
device count, so device 1 starts at `100 + 2^62 - 1`. -/
theorem C2_counterexample :
    wp100.getDeviceStartNonce 1 ≠ 100 + 2 ^ 64 / 4 * 1 := by decide

/-- C2 (amended): `device_start_nonce(i)` equals
`start_nonce + ⌊(2^64-1)/clamped_T⌋ · clamped_i` whenever that sum fits in
64 bits (all devices sharing the space value `⌊(2^64-1)/clamped_T⌋`); with
start nonce 100 and 4 devices, device 0 starts at 100, device 1 at
`100 + (2^62 - 1)`, device 3 at `100 + 3·(2^62 - 1)`; the per-device
half-open ranges of width `⌊(2^64-1)/clamped_T⌋` are pairwise disjoint
whenever the last device's start `start_nonce + space·(clamped_T - 1)` fits
in 64 bits — in particular the four ranges of the concrete scenario are
pairwise disjoint. -/
theorem C2_partition_amended :
    (∀ (wp : WorkPackage) (i : ℕ), 2 ≤ wp.totalDevices →
      wp.startNonce + (2 ^ 64 - 1) / min wp.totalDevices 256 *
        min i (min wp.totalDevices 256 - 1) ≤ 2 ^ 64 - 1 →
      wp.getDeviceStartNonce i =
        wp.startNonce + (2 ^ 64 - 1) / min wp.totalDevices 256 *
          min i (min wp.totalDevices 256 - 1))
    ∧ wp100.getDeviceStartNonce 0 = 100
    ∧ wp100.getDeviceStartNonce 1 = 100 + (2 ^ 62 - 1)
    ∧ wp100.getDeviceStartNonce 3 = 100 + 3 * (2 ^ 62 - 1)
    ∧ (∀ (wp : WorkPackage) (i j n : ℕ), 2 ≤ wp.totalDevices →
      i < min wp.totalDevices 256 → j < min wp.totalDevices 256 → i ≠ j →
      wp.startNonce + (2 ^ 64 - 1) / min wp.totalDevices 256 *
        (min wp.totalDevices 256 - 1) ≤ 2 ^ 64 - 1 →
      ¬ (wp.getDeviceStartNonce i ≤ n ∧
         n < wp.getDeviceStartNonce i + (2 ^ 64 - 1) / min wp.totalDevices 256 ∧
         wp.getDeviceStartNonce j ≤ n ∧
         n < wp.getDeviceStartNonce j + (2 ^ 64 - 1) / min wp.totalDevices 256))
    ∧ (∀ (i j n : ℕ), i < 4 → j < 4 → i ≠ j →
      ¬ (wp100.getDeviceStartNonce i ≤ n ∧
         n < wp100.getDeviceStartNonce i + (2 ^ 64 - 1) / 4 ∧
         wp100.getDeviceStartNonce j ≤ n ∧
         n < wp100.getDeviceStartNonce j + (2 ^ 64 - 1) / 4)) := by
  have formula : ∀ (wp : WorkPackage) (i : ℕ), 2 ≤ wp.totalDevices →
      wp.startNonce + (2 ^ 64 - 1) / min wp.totalDevices 256 *
        min i (min wp.totalDevices 256 - 1) ≤ 2 ^ 64 - 1 →
      wp.getDeviceStartNonce i =
        wp.startNonce + (2 ^ 64 - 1) / min wp.totalDevices 256 *
          min i (min wp.totalDevices 256 - 1) := by
    intro wp i h2 hof
    have h1 : ¬ wp.totalDevices ≤ 1 := by omega
    have hcl : (if wp.totalDevices > 256 then 256 else wp.totalDevices)
        = min wp.totalDevices 256 := by split <;> omega
    have hidx : (if i ≥ min wp.totalDevices 256 then min wp.totalDevices 256 - 1 else i)
        = min i (min wp.totalDevices 256 - 1) := by split <;> omega
    simp only [WorkPackage.getDeviceStartNonce, MAX_DEVICES, U64MAX, h1, if_false,
      hcl, hidx, ite_false]
    rw [if_neg (by omega)]
  have hdis : ∀ (wp : WorkPackage) (i j n : ℕ), 2 ≤ wp.totalDevices →
      i < min wp.totalDevices 256 → j < min wp.totalDevices 256 → i ≠ j →
      wp.startNonce + (2 ^ 64 - 1) / min wp.totalDevices 256 *
        (min wp.totalDevices 256 - 1) ≤ 2 ^ 64 - 1 →
      ¬ (wp.getDeviceStartNonce i ≤ n ∧
         n < wp.getDeviceStartNonce i + (2 ^ 64 - 1) / min wp.totalDevices 256 ∧
         wp.getDeviceStartNonce j ≤ n ∧
         n < wp.getDeviceStartNonce j + (2 ^ 64 - 1) / min wp.totalDevices 256) := by
    intro wp i j n h2 hi hj hne hfit hcon
    have hval : ∀ k, k < min wp.totalDevices 256 →
        wp.getDeviceStartNonce k =
          wp.startNonce + (2 ^ 64 - 1) / min wp.totalDevices 256 * k := by
      intro k hk
      have hkle : min k (min wp.totalDevices 256 - 1) = k := Nat.min_eq_left (by omega)
      have hmul : (2 ^ 64 - 1) / min wp.totalDevices 256 * k ≤
          (2 ^ 64 - 1) / min wp.totalDevices 256 * (min wp.totalDevices 256 - 1) :=
        Nat.mul_le_mul_left _ (by omega)
      have hof : wp.startNonce + (2 ^ 64 - 1) / min wp.totalDevices 256 *
          min k (min wp.totalDevices 256 - 1) ≤ 2 ^ 64 - 1 := by
        rw [hkle]; omega
      rw [formula wp k h2 hof, hkle]
    rw [hval i hi, hval j hj] at hcon
    rcases hne.lt_or_lt with hlt | hlt
    · have hmul : (2 ^ 64 - 1) / min wp.totalDevices 256 * (i + 1) ≤
          (2 ^ 64 - 1) / min wp.totalDevices 256 * j :=
        Nat.mul_le_mul_left _ (by omega)
      rw [Nat.mul_succ] at hmul
      omega
    · have hmul : (2 ^ 64 - 1) / min wp.totalDevices 256 * (j + 1) ≤
          (2 ^ 64 - 1) / min wp.totalDevices 256 * i :=
        Nat.mul_le_mul_left _ (by omega)
      rw [Nat.mul_succ] at hmul
      omega
  refine ⟨formula, by decide, by decide, by decide, hdis, ?_⟩
  intro i j n hi hj hne
  have hmin : min wp100.totalDevices 256 = 4 := by decide
  have h := hdis wp100 i j n (by decide) (by rw [hmin]; exact hi) (by rw [hmin]; exact hj)
    hne (by decide)
  rw [hmin] at h
  exact h

/-- Witness for C2: the amended formula applied at the concrete partition
scenario (4 devices, start nonce 100, device 1), and the concrete-scenario
disjointness applied at devices 0 and 1 with the probe nonce `2^62` (which
lies in device 0's range). -/
theorem C2_witness :
    wp100.getDeviceStartNonce 1 = 100 + (2 ^ 64 - 1) / min 4 256 * min 1 (min 4 256 - 1) ∧
    ¬ (wp100.getDeviceStartNonce 0 ≤ 2 ^ 62 ∧
       2 ^ 62 < wp100.getDeviceStartNonce 0 + (2 ^ 64 - 1) / 4 ∧
       wp100.getDeviceStartNonce 1 ≤ 2 ^ 62 ∧
       2 ^ 62 < wp100.getDeviceStartNonce 1 + (2 ^ 64 - 1) / 4) := by
  constructor
  · exact C2_partition_amended.1 wp100 1 (by decide) (by decide)
  · exact C2_partition_amended.2.2.2.2.2 0 1 (2 ^ 62) (by decide) (by decide) (by decide)

/-! ## C3 — duplicate-nonce suppression -/

/-- Counterexample to C3 as stated: the absolute guarantee "a worker never
emits two solutions with the same nonce for the same job" fails once the
1000-entry cap clears the cache wholesale.  A fresh worker fed the candidate
nonces `0, 1, …, 1000, 0` of one fixed job (`workC3`, constant `job_id`)
emits nonce 0 twice: recording nonce 1000 clears the cache, so the second
occurrence of nonce 0 is no longer recognised as a duplicate. -/
theorem C3_counterexample :
    (runNonces H0 minerStC3 (List.range 1001 ++ [0])).count 0 = 2 := by
  rw [c3_trace, List.count_append]
  have h1 : (List.range 1001).count 0 = 1 :=
    List.count_eq_one_of_mem (List.nodup_range 1001) (by simp)
  simp [h1]

/-- C3 (amended): a nonce present in the submitted-nonces cache is rejected
as a duplicate — `duplicateSolutions` is incremented and nothing is emitted —
so a nonce is never emitted twice while the cache retains it; the cache never
exceeds 1000 entries, being cleared wholesale before the insert that would
overflow it (after which an earlier nonce may be emitted again, see the
counterexample); `setWork` with a different job id flushes the cache
unconditionally; and every emitted nonce is recorded in the post-state
cache. -/
theorem C3_duplicate_suppression_amended :
    (∀ (H : List ℕ → List ℕ) (st : MinerState) (nonce : ℕ),
      st.work.valid = true → nonce ∈ st.submittedNonces →
      verifySolutionRun H st nonce =
        ⟨false, none,
          { st with health := { st.health with
              duplicateSolutions := st.health.duplicateSolutions + 1 } }⟩)
    ∧ (∀ (cache : List ℕ) (n : ℕ), cache.length ≤ 1000 →
        (recordSubmittedNonce cache n).length ≤ 1000)
    ∧ (∀ (cache : List ℕ) (n : ℕ), cache.length ≥ 1000 →
        recordSubmittedNonce cache n = [n])
    ∧ (∀ (st : MinerState) (w : WorkPackage), w.jobId ≠ st.work.jobId →
        (minerSetWork st w).submittedNonces = [])
    ∧ (∀ (H : List ℕ → List ℕ) (st : MinerState) (nonce : ℕ) (s : Solution),
        (verifySolutionRun H st nonce).emitted = some s →
        s.nonce ∈ (verifySolutionRun H st nonce).post.submittedNonces) := by
  refine ⟨?_, ?_, ?_, ?_, ?_⟩
  · intro H st nonce hv hdup
    simp [verifySolutionRun, hv, hdup]
  · intro cache n hlen
    by_cases hfull : cache.length ≥ MAX_SUBMITTED_NONCES
    · simp [recordSubmittedNonce, hfull, List.insert]
    · simp only [recordSubmittedNonce, hfull, if_neg, ite_false]
      by_cases hm : n ∈ cache
      · rw [List.insert_of_mem hm]
        simpa [MAX_SUBMITTED_NONCES] using hlen
      · rw [List.insert_of_not_mem hm]
        simp only [List.length_cons]
        simp only [MAX_SUBMITTED_NONCES] at hfull
        omega
  · intro cache n hfull
    simp [recordSubmittedNonce, MAX_SUBMITTED_NONCES, hfull, List.insert]
  · intro st w hne
    simp [minerSetWork, hne]
  · intro H st nonce s
    simp only [verifySolutionRun]
    repeat' split
    all_goals intro hemit
    all_goals first
      | (simp only [Option.some.injEq] at hemit
         subst hemit
         simp [recordSubmittedNonce, List.mem_insert_iff])
      | simp at hemit

/-- Witness for C3: a worker whose cache already holds nonce 7 rejects a
second report of nonce 7, incrementing `duplicateSolutions` and emitting
nothing. -/
theorem C3_witness :
    verifySolutionRun H0 stC3dup 7 =
      ⟨false, none,
        { stC3dup with health := { stC3dup.health with
            duplicateSolutions := stC3dup.health.duplicateSolutions + 1 } }⟩ := by
  exact C3_duplicate_suppression_amended.1 H0 stC3dup 7 (by decide) (by decide)

/-! ## C7 — out-of-range candidate nonces -/

/-- Counterexample to C7 as stated: worker 0 of a four-device job receives
candidate nonce `2^62`, which lies outside its range
`[0, (2^64-1)/4)`.  The candidate is rejected without emission, but —
contrary to the claim — the `hardwareErrors` counter is *not* incremented:
the whole state, health record included, is left untouched
(`Miner::recordHardwareError` exists but is never invoked on this path). -/
theorem C7_counterexample :
    (2 : ℕ) ^ 62 ≥ (stC7.work.getDeviceStartNonce 0 + U64MAX / 4) % U64 ∧
    (verifySolutionRun H0 stC7 (2 ^ 62)).ok = false ∧
    (verifySolutionRun H0 stC7 (2 ^ 62)).emitted = none ∧
    (verifySolutionRun H0 stC7 (2 ^ 62)).post.health.hardwareErrors = 0 ∧
    ¬ ((verifySolutionRun H0 stC7 (2 ^ 62)).post.health.hardwareErrors =
        stC7.health.hardwareErrors + 1) := by
  refine ⟨by decide, by decide, by decide, by decide, by decide⟩

/-- C7 (amended): a candidate nonce outside the worker's allocated range
(with the work valid, the nonce fresh, and more than one device) is rejected
with nothing emitted and the worker state — health counters included —
unchanged; the rejection happens without computing the hash: the outcome is
identical for every hash function.  (`hardwareErrors` is *not* incremented;
the claim's "logs it" concerns the logging collaborator, outside this
embedding.) -/
theorem C7_out_of_range_amended :
    ∀ (H H' : List ℕ → List ℕ) (st : MinerState) (nonce : ℕ),
      st.work.valid = true → nonce ∉ st.submittedNonces →
      1 < st.work.totalDevices →
      (nonce < st.work.getDeviceStartNonce st.index ∨
        ((st.work.getDeviceStartNonce st.index + U64MAX / st.work.totalDevices) % U64 >
            st.work.getDeviceStartNonce st.index ∧
          nonce ≥ (st.work.getDeviceStartNonce st.index + U64MAX / st.work.totalDevices) % U64)) →
      verifySolutionRun H st nonce = ⟨false, none, st⟩ ∧
      verifySolutionRun H st nonce = verifySolutionRun H' st nonce := by
  intro H H' st nonce hv hnm hT hrange
  have key : ∀ (G : List ℕ → List ℕ), verifySolutionRun G st nonce = ⟨false, none, st⟩ := by
    intro G
    simp [verifySolutionRun, hv, hnm, hT, hrange]
  exact ⟨key H, (key H).trans (key H').symm⟩

/-- Witness for C7: the out-of-range rejection at the concrete four-device
state, for two different hash functions. -/
theorem C7_witness :
    verifySolutionRun H0 stC7 (2 ^ 62) = ⟨false, none, stC7⟩ ∧
    verifySolutionRun H0 stC7 (2 ^ 62) = verifySolutionRun H1 stC7 (2 ^ 62) := by
  exact C7_out_of_range_amended H0 H1 stC7 (2 ^ 62) (by decide) (by decide) (by decide)
    (by decide)

/-! ## C10 — the nonce-0 sentinel of `TosHash::search` -/

/-- C10: `TosHash::search` signals "no solution" by returning the default
`Solution` whose nonce field is 0; when nonce 0 itself meets the target the
returned solution's nonce field coincides with that sentinel; and the CPU
mine loop, which tests `sol.nonce != 0`, consequently never verifies or
submits candidate nonce 0 — whatever the hash function and target. -/
theorem C10_nonce_zero_sentinel :
    (∀ (H : List ℕ → List ℕ) (work : WorkPackage) (nonce : ℕ),
      meetsTarget (H (withNonce work.header nonce)) work.target = false →
      search H work nonce = Solution.mkDefault)
    ∧ (∀ (H : List ℕ → List ℕ) (work : WorkPackage),
      meetsTarget (H (withNonce work.header 0)) work.target = true →
      search H work 0 = ⟨0, H (withNonce work.header 0), 0⟩ ∧
      (search H work 0).nonce = Solution.mkDefault.nonce)
    ∧ (∀ (H : List ℕ → List ℕ) (st : MinerState),
      cpuHandleCandidate H st 0 = (none, st)) := by
  refine ⟨?_, ?_, ?_⟩
  · intro H work nonce hmt
    simp [search, hmt]
  · intro H work hmt
    simp [search, hmt, Solution.mkDefault]
  · intro H st
    simp only [cpuHandleCandidate, search]
    split <;> simp [Solution.mkDefault]

/-- Witness for C10: with the constant all-zero hasher and the permissive
target of `workC3`, nonce 0 meets the target, yet `search` returns a
solution carrying the sentinel nonce 0 and the CPU loop submits nothing. -/
theorem C10_witness :
    meetsTarget (H0 (withNonce workC3.header 0)) workC3.target = true ∧
    (search H0 workC3 0).nonce = Solution.mkDefault.nonce ∧
    cpuHandleCandidate H0 minerStC3 0 = (none, minerStC3) := by
  refine ⟨by decide, (C10_nonce_zero_sentinel.2.1 H0 workC3 (by decide)).2,
    C10_nonce_zero_sentinel.2.2 H0 minerStC3⟩

/-! ## C4 — difficulty-to-target derivation -/

/-- Folding base-256 accumulation from an arbitrary seed. -/
theorem foldl_mul_add (l : List ℕ) : ∀ a : ℕ,
    l.foldl (fun x b => x * 256 + b) a = a * 256 ^ l.length + l.foldl (fun x b => x * 256 + b) 0 := by
  induction l with
  | nil => intro a; simp
  | cons b bs ih =>
      intro a
      simp only [List.foldl_cons, List.length_cons]
      rw [ih (a * 256 + b), ih (0 * 256 + b)]
      ring

/-- Big-endian value of a cons cell. -/
theorem valBE_cons (b : ℕ) (bs : List ℕ) :
    valBE (b :: bs) = b * 256 ^ bs.length + valBE bs := by
  unfold valBE
  simp only [List.foldl_cons]
  rw [foldl_mul_add bs (0 * 256 + b)]
  ring_nf

/-- A byte list's big-endian value is bounded by `256 ^ length`. -/
theorem valBE_lt (l : List ℕ) (h : ∀ b ∈ l, b < 256) : valBE l < 256 ^ l.length := by
  induction l with
  | nil => simp [valBE]
  | cons b bs ih =>
      rw [valBE_cons, List.length_cons]
      have hb : b * 256 ^ bs.length ≤ 255 * 256 ^ bs.length :=
        Nat.mul_le_mul_right _ (by have := h b (by simp); omega)
      have hv : valBE bs < 256 ^ bs.length := ih (fun x hx => h x (by simp [hx]))
      have hp : (256 : ℕ) ^ (bs.length + 1) = 256 * 256 ^ bs.length := by ring
      omega

/-- Dropping `k` leading bytes reduces the big-endian value modulo
`256 ^ (length - k)`. -/
theorem valBE_drop (l : List ℕ) : ∀ k : ℕ, (∀ b ∈ l, b < 256) →
    valBE (l.drop k) = valBE l % 256 ^ (l.length - k) := by
  induction l with
  | nil => intro k _; simp [valBE]
  | cons b bs ih =>
      intro k h
      cases k with
      | zero =>
          simp only [List.drop_zero, Nat.sub_zero]
          exact (Nat.mod_eq_of_lt (valBE_lt _ h)).symm
      | succ k =>
          simp only [List.drop_succ_cons, List.length_cons, Nat.succ_sub_succ]
          rw [ih k (fun x hx => h x (by simp [hx])), valBE_cons]
          have hdvd : 256 ^ (bs.length - k) ∣ b * 256 ^ bs.length :=
            Dvd.dvd.mul_left (pow_dvd_pow 256 (by omega)) b
          obtain ⟨c, hc⟩ := hdvd
          have hz : b * 256 ^ bs.length % 256 ^ (bs.length - k) = 0 := by
            rw [hc, Nat.mul_mod_right]
          rw [Nat.add_mod, hz]
          simp

/-- Correctness of the byte-wise long division of `difficultyToTarget`: the
digit list is the base-256 expansion of the quotient (no digit ever trips the
255 clamp) and the final remainder is the modulus. -/
theorem longDiv_spec (divisor : ℕ) (hpos : 0 < divisor) :
    ∀ (bytes : List ℕ) (rem : ℕ), rem < divisor → (∀ b ∈ bytes, b < 256) →
    (longDiv divisor bytes rem).1.length = bytes.length ∧
    (∀ q ∈ (longDiv divisor bytes rem).1, q < 256) ∧
    valBE (longDiv divisor bytes rem).1 = (rem * 256 ^ bytes.length + valBE bytes) / divisor ∧
    (longDiv divisor bytes rem).2 = (rem * 256 ^ bytes.length + valBE bytes) % divisor := by
  intro bytes
  induction bytes with
  | nil =>
      intro rem hrem _
      refine ⟨rfl, by simp [longDiv], ?_, ?_⟩
      · simp [longDiv, valBE, Nat.div_eq_of_lt hrem]
      · simp [longDiv, valBE, Nat.mod_eq_of_lt hrem]
  | cons b bs ih =>
      intro rem hrem hb
      have hblt : b < 256 := hb b (by simp)
      have hq : (rem * 256 + b) / divisor < 256 :=
        (Nat.div_lt_iff_lt_mul hpos).mpr (by omega)
      have hmod : (rem * 256 + b) % divisor < divisor := Nat.mod_lt _ hpos
      have ihh := ih ((rem * 256 + b) % divisor) hmod (fun x hx => hb x (by simp [hx]))
      have hclamp : (if (rem * 256 + b) / divisor > 255 then 255 else (rem * 256 + b) / divisor)
          = (rem * 256 + b) / divisor := if_neg (by omega)
      simp only [longDiv, hclamp]
      have hkey : rem * 256 ^ (bs.length + 1) + valBE (b :: bs) =
          divisor * ((rem * 256 + b) / divisor * 256 ^ bs.length) +
            ((rem * 256 + b) % divisor * 256 ^ bs.length + valBE bs) := by
        rw [valBE_cons]
        have hdm := Nat.div_add_mod (rem * 256 + b) divisor
        calc rem * 256 ^ (bs.length + 1) + (b * 256 ^ bs.length + valBE bs)
            = (rem * 256 + b) * 256 ^ bs.length + valBE bs := by ring
          _ = (divisor * ((rem * 256 + b) / divisor) + (rem * 256 + b) % divisor)
                * 256 ^ bs.length + valBE bs := by rw [hdm]
          _ = divisor * ((rem * 256 + b) / divisor * 256 ^ bs.length) +
                ((rem * 256 + b) % divisor * 256 ^ bs.length + valBE bs) := by ring
      refine ⟨by simpa using ihh.1, ?_, ?_, ?_⟩
      · intro q hq'
        rcases List.mem_cons.mp hq' with h | h
        · omega
        · exact ihh.2.1 q h
      · rw [valBE_cons, ihh.1, ihh.2.2.1, List.length_cons, hkey,
            Nat.mul_add_div hpos]
      · rw [List.length_cons, hkey, Nat.mul_add_mod, ihh.2.2.2]

/-- An all-zero byte list has value zero. -/
theorem allZero_valBE (l : List ℕ) (h : l.all (· = 0) = true) : valBE l = 0 := by
  induction l with
  | nil => simp [valBE]
  | cons b bs ih =>
      simp only [List.all_cons, Bool.and_eq_true, decide_eq_true_eq] at h
      rw [valBE_cons, h.1, ih h.2]
      simp

/-- The num/den integer division of `scaledDiff` computes exactly
`⌊d · 2^32⌋` for nonnegative `d`: the embedding's truncation agrees with the
C++ cast of the exact double product. -/
theorem scaledDiff_eq_floor (d : ℚ) (h : 0 ≤ d) : (scaledDiff d : ℤ) = ⌊d * 4294967296⌋ := by
  have h1 : d * 4294967296 = ((d.num * 4294967296 : ℤ) : ℚ) / ((d.den : ℕ) : ℚ) := by
    nth_rewrite 1 [← Rat.num_div_den d]
    push_cast
    ring
  rw [h1, Rat.floor_intCast_div_natCast]
  have hnum : 0 ≤ d.num := Rat.num_nonneg.mpr h
  unfold scaledDiff
  rw [Int.ofNat_tdiv]
  push_cast [Int.toNat_of_nonneg hnum]
  exact Int.tdiv_eq_ediv (by positivity) (by positivity)

/-- Counterexample to C4 as stated: for the double-representable difficulty
`d0 = 1 + 2^-40` the claim's formula predicts
`⌊0xFFFF · 2^208 / d0⌋ = ⌊0xFFFF · 2^208 · 2^40 / (2^40 + 1)⌋`, but the code
divides by the *truncated* scaled divisor `⌊d0 · 2^32⌋ = 2^32` and therefore
returns the unreduced base target instead. -/
theorem C4_counterexample :
    difficultyToTarget d0 ≠ beBytes 32 (65535 * 2 ^ 208 * 2 ^ 40 / (2 ^ 40 + 1)) := by
  decide

/-- C4 (amended): `difficultyToTarget` produces the big-endian pdiff target
`⌊0xFFFF · 2^240 / ⌊d · 2^32⌋⌋` — which equals the claimed
`⌊0xFFFF · 2^208 / d⌋` whenever `d · 2^32` is an integer — with the boundary
rules as stated: `d ≤ 0` yields the all-0xFF target, `0 < d < 1` the fixed
base target `0x00000000FFFF00…00`, difficulties above `10^15` are clamped to
`10^15`, an all-zero result would get byte 31 forced to 1 (unreachable for
`1 ≤ d ≤ 10^15`); `d = 1` yields the base target, `d = 3/2` yields
`0x00000000AAAA00…00` and `d = 2` yields `0x000000007FFF8000…00`. -/
theorem C4_difficulty_to_target_amended :
    (∀ d : ℚ, d ≤ 0 → difficultyToTarget d = List.replicate 32 255)
    ∧ (∀ d : ℚ, 0 < d → d < 1 → difficultyToTarget d = baseTarget)
    ∧ (∀ d : ℚ, 10 ^ 15 < d → difficultyToTarget d = difficultyToTarget (10 ^ 15))
    ∧ difficultyToTarget 1 = baseTarget
    ∧ difficultyToTarget (mkRat 3 2) = beBytes 32 (43690 * 2 ^ 208)
    ∧ difficultyToTarget 2 = beBytes 32 (65535 * 2 ^ 207)
    ∧ (∀ d : ℚ, 1 ≤ d → d ≤ 10 ^ 15 →
        (difficultyToTarget d).length = 32 ∧
        valBE (difficultyToTarget d) = 65535 * 2 ^ 240 / (⌊d * 4294967296⌋).toNat) := by
  refine ⟨?_, ?_, ?_, by decide, by decide, by decide, ?_⟩
  · intro d hd
    unfold difficultyToTarget
    rw [if_pos hd]
  · intro d h0 h1
    unfold difficultyToTarget
    rw [if_neg (not_le.mpr h0), if_pos h1]
  · intro d hd
    have h1d : ¬ d ≤ 0 := not_le.mpr (lt_trans (by norm_num) hd)
    have h2d : ¬ d < 1 := not_lt.mpr (le_of_lt (lt_trans (by norm_num) hd))
    unfold difficultyToTarget
    rw [if_neg h1d, if_neg h2d, if_pos hd,
        if_neg (by norm_num : ¬ ((10 : ℚ) ^ 15) ≤ 0),
        if_neg (by norm_num : ¬ ((10 : ℚ) ^ 15) < 1),
        if_neg (lt_irrefl ((10 : ℚ) ^ 15))]
  · intro d h1 h15
    have hdpos : (0 : ℚ) < d := lt_of_lt_of_le zero_lt_one h1
    have hnum0 : 0 ≤ d.num := Rat.num_nonneg.mpr (le_of_lt hdpos)
    have hden : 0 < d.den := d.pos
    have hone : (1 : ℚ).num * (d.den : ℤ) ≤ d.num * (1 : ℚ).den := Rat.le_def.mp h1
    have h15' : d ≤ ((1000000000000000 : ℚ)) := by
      have h : ((10 : ℚ) ^ 15) = (1000000000000000 : ℚ) := by norm_num
      linarith [h15, h.le]
    have hup : d.num * (1000000000000000 : ℚ).den ≤ (1000000000000000 : ℚ).num * (d.den : ℤ) :=
      Rat.le_def.mp h15'
    simp only [Rat.num_ofNat, Rat.den_ofNat, Nat.cast_one, one_mul, mul_one] at hone hup
    have hnumle : d.num.toNat ≤ 10 ^ 15 * d.den := by omega
    have hdenle : d.den ≤ d.num.toNat := by omega
    have hlow : 4294967296 ≤ scaledDiff d := by
      unfold scaledDiff
      calc (4294967296 : ℕ) = d.den * 4294967296 / d.den := by
            rw [Nat.mul_div_cancel_left _ hden]
        _ ≤ d.num.toNat * 4294967296 / d.den :=
            Nat.div_le_div_right (Nat.mul_le_mul_right _ hdenle)
    have hub : scaledDiff d ≤ 10 ^ 15 * 4294967296 := by
      unfold scaledDiff
      calc d.num.toNat * 4294967296 / d.den
          ≤ 10 ^ 15 * d.den * 4294967296 / d.den :=
            Nat.div_le_div_right (Nat.mul_le_mul_right _ hnumle)
        _ = d.den * (10 ^ 15 * 4294967296) / d.den := by ring_nf
        _ = 10 ^ 15 * 4294967296 := Nat.mul_div_cancel_left _ hden
    have hne : ¬ scaledDiff d = 0 := by omega
    have hd0 : ¬ d ≤ 0 := not_le.mpr hdpos
    have hd1 : ¬ d < 1 := not_lt.mpr h1
    have hdc : ¬ d > 10 ^ 15 := not_lt.mpr h15
    have hdd : ∀ b ∈ ddBytes, b < 256 := by decide
    have hddlen : ddBytes.length = 36 := by rfl
    have hddval : valBE ddBytes = 65535 * 2 ^ 240 := by decide
    have hspec := longDiv_spec (scaledDiff d) (by omega) ddBytes 0 (by omega) hdd
    have hdigval : valBE (longDiv (scaledDiff d) ddBytes 0).1 =
        65535 * 2 ^ 240 / scaledDiff d := by
      rw [hspec.2.2.1, hddval, hddlen]
      norm_num
    have hdiglen : (longDiv (scaledDiff d) ddBytes 0).1.length = 36 := by
      rw [hspec.1, hddlen]
    have hQlt : 65535 * 2 ^ 240 / scaledDiff d < 256 ^ 32 := by
      calc 65535 * 2 ^ 240 / scaledDiff d ≤ 65535 * 2 ^ 240 := Nat.div_le_self _ _
        _ < 256 ^ 32 := by norm_num
    have hQ1 : 1 ≤ 65535 * 2 ^ 240 / scaledDiff d :=
      (Nat.one_le_div_iff (by omega)).mpr (le_trans hub (by norm_num))
    have hdropval : valBE ((longDiv (scaledDiff d) ddBytes 0).1.drop 4) =
        65535 * 2 ^ 240 / scaledDiff d := by
      rw [valBE_drop _ 4 hspec.2.1, hdigval, hdiglen,
        show (36 : ℕ) - 4 = 32 from rfl]
      exact Nat.mod_eq_of_lt hQlt
    have hnz : ¬ ((longDiv (scaledDiff d) ddBytes 0).1.drop 4).all (· = 0) = true := by
      intro hz
      have h := allZero_valBE _ hz
      rw [hdropval] at h
      omega
    have hfloor : (⌊d * 4294967296⌋).toNat = scaledDiff d := by
      rw [← scaledDiff_eq_floor d (le_of_lt hdpos)]
      exact Int.toNat_natCast _
    unfold difficultyToTarget
    rw [if_neg hd0, if_neg hd1]
    simp only [if_neg hdc, if_neg hne, if_neg hnz]
    refine ⟨?_, ?_⟩
    · rw [List.length_drop, hdiglen]
    · rw [hdropval, hfloor]

/-- Witness for C4: the amended general formula applied at difficulty 2. -/
theorem C4_witness :
    (difficultyToTarget 2).length = 32 ∧
    valBE (difficultyToTarget 2) = 65535 * 2 ^ 240 / (⌊(2 : ℚ) * 4294967296⌋).toNat := by
  exact C4_difficulty_to_target_amended.2.2.2.2.2.2 2 (by norm_num) (by norm_num)

/-! ## C5 — submission encoding -/

/-- Hex encoding round-trips on bytes. -/
theorem decodePairs_byteHex (bytes : List ℕ) (h : ∀ b ∈ bytes, b < 256) :
    decodePairs ((bytes.map byteHex).flatten) = bytes := by
  induction bytes with
  | nil => rfl
  | cons b bs ih =>
      have hb : b < 256 := h b (by simp)
      have h16 : b / 16 < 16 := by omega
      have hv1 : hexVal (hexDigit (b / 16)) = b / 16 := by
        interval_cases h : (b / 16) <;> decide
      have hv2 : hexVal (hexDigit (b % 16)) = b % 16 := by
        have : b % 16 < 16 := Nat.mod_lt _ (by omega)
        interval_cases h : (b % 16) <;> decide
      simp only [List.map_cons, List.flatten_cons, byteHex, List.cons_append,
        List.nil_append, List.append_nil, decodePairs, hv1, hv2, List.append_eq]
      rw [ih (fun x hx => h x (by simp [hx]))]
      congr 1
      omega

/-- Each hex-encoded byte contributes exactly two characters. -/
theorem length_join_byteHex (bytes : List ℕ) :
    ((bytes.map byteHex).flatten).length = 2 * bytes.length := by
  induction bytes with
  | nil => rfl
  | cons b bs ih =>
      simp only [List.map_cons, List.flatten_cons, List.length_append, List.length_cons, ih, byteHex]
      simp [List.length_cons]
      omega

/-- `leBytes` produces bytes. -/
theorem leBytes_lt (k v : ℕ) : ∀ b ∈ leBytes k v, b < 256 := by
  intro b hb
  simp only [leBytes, List.mem_map] at hb
  obtain ⟨i, _, rfl⟩ := hb
  exact Nat.mod_lt _ (by omega)

/-- `beBytes` produces bytes. -/
theorem beBytes_lt (k v : ℕ) : ∀ b ∈ beBytes k v, b < 256 := by
  intro b hb
  simp only [beBytes, List.mem_map] at hb
  obtain ⟨i, _, rfl⟩ := hb
  exact Nat.mod_lt _ (by omega)

/-- The little-endian byte extraction encodes the value modulo `256^k`. -/
theorem valLE_leBytes (k : ℕ) : ∀ v : ℕ, valLE (leBytes k v) = v % 256 ^ k := by
  induction k with
  | zero => intro v; simp [leBytes, valLE, Nat.mod_one]
  | succ k ih =>
      intro v
      have hmap : leBytes (k + 1) v = v % 256 :: leBytes k (v / 256) := by
        simp only [leBytes, List.range_succ_eq_map, List.map_cons, pow_zero, Nat.div_one,
          List.map_map]
        congr 1
        apply List.map_congr_left
        intro i _
        simp only [Function.comp_apply]
        rw [pow_succ', ← Nat.div_div_eq_div_mul]
      rw [hmap]
      simp only [valLE, ih (v / 256)]
      rw [pow_succ', Nat.mod_mul]

/-- The big-endian byte extraction encodes the value modulo `256^k`. -/
theorem valBE_beBytes (k : ℕ) : ∀ v : ℕ, valBE (beBytes k v) = v % 256 ^ k := by
  induction k with
  | zero => intro v; simp [beBytes, valBE, Nat.mod_one]
  | succ k ih =>
      intro v
      have hmap : beBytes (k + 1) v = (v / 256 ^ k % 256) :: beBytes k v := by
        simp only [beBytes, List.range_succ_eq_map, List.map_cons, Nat.add_sub_cancel,
          Nat.sub_zero, List.map_map]
        congr 1
        apply List.map_congr_left
        intro i _
        simp only [Function.comp_apply]
        have he : k - i.succ = k - 1 - i := by omega
        rw [he]
      rw [hmap, valBE_cons]
      have hlen : (beBytes k v).length = k := by simp [beBytes]
      rw [hlen, ih v, pow_succ, Nat.mod_mul]
      ring

/-- C5: in `mining.submit` parameters, `extranonce2_hex` is exactly
`2 · extraNonce2Size` hex characters encoding `nonce - work.startNonce`
(wrapping 64-bit subtraction) in little-endian byte order — decoding it
recovers that difference modulo `256^size` — and `nonce_hex` is exactly 16
hex characters encoding the nonce in big-endian; neither is zero-stripped
(the lengths are exact for every value). -/
theorem C5_submit_encoding :
    ∀ (size nonce startNonce : ℕ),
      (submitEn2Hex size nonce startNonce).length = 2 * size ∧
      valLE (decodePairs (submitEn2Hex size nonce startNonce)) =
        ((nonce % U64 + U64 - startNonce % U64) % U64) % 256 ^ size ∧
      (submitNonceHex nonce).length = 16 ∧
      valBE (decodePairs (submitNonceHex nonce)) = nonce % U64 := by
  intro size n s
  refine ⟨?_, ?_, ?_, ?_⟩
  · rw [submitEn2Hex, length_join_byteHex]
    simp [leBytes]
  · rw [submitEn2Hex, decodePairs_byteHex _ (leBytes_lt _ _), valLE_leBytes]
  · rw [submitNonceHex, length_join_byteHex]
    simp [beBytes]
  · rw [submitNonceHex, decodePairs_byteHex _ (beBytes_lt _ _), valBE_beBytes]
    rw [show (256 : ℕ) ^ 8 = U64 from by norm_num [U64], U64]
    omega

/-! ## C6 — reconnect backoff and failover -/

/-- Counterexample to C6 as stated: a fresh single-pool session (attempt
counter 0, default base delay 5 s) schedules its first retry after
`5 · 2^min(0+1, 5) = 10` seconds, not the claimed `5 · 2^min(0, 5) = 5`:
the counter is incremented *before* the delay is computed. -/
theorem C6_counterexample :
    (handleReconnect (reconnInit 5)).2 = ReconnAction.retry 10 ∧
    (10 : ℕ) ≠ 5 * 2 ^ min 0 5 := by
  exact ⟨by decide, by decide⟩

/-- C6 (amended): on a reconnect-triggering error the session increments
`reconnect_attempts` first; with a single pool and incremented count below
`MAX_ATTEMPTS = 10` it schedules a retry after
`base_delay · 2^min(count, 5)` seconds, stops permanently once the
incremented count reaches 10, and with more than one configured pool an
incremented count reaching `MAX_ATTEMPTS / 2 = 5` switches to the next pool,
resets the counter to 0 and retries after `base · 2^0`; consequently for the
k-th consecutive failure (k = 0…7, single pool, fresh session) the observed
delay is exactly `base · 2^min(k+1, 5)`. -/
theorem C6_reconnect_amended :
    (∀ st : ReconnState, st.running = true → st.autoReconnect = true → st.numPools ≤ 1 →
      st.reconnectAttempts + 1 < 10 →
      handleReconnect st =
        ({ st with reconnectAttempts := st.reconnectAttempts + 1 },
          ReconnAction.retry (st.reconnectDelay * 2 ^ min (st.reconnectAttempts + 1) 5)))
    ∧ (∀ st : ReconnState, st.running = true → st.autoReconnect = true → st.numPools ≤ 1 →
      st.reconnectAttempts + 1 ≥ 10 →
      handleReconnect st =
        ({ st with reconnectAttempts := st.reconnectAttempts + 1, running := false },
          ReconnAction.stopped))
    ∧ (∀ st : ReconnState, st.running = true → st.autoReconnect = true → 1 < st.numPools →
      st.reconnectAttempts + 1 ≥ 5 →
      handleReconnect st =
        ({ st with
            reconnectAttempts := 0
            currentPoolIndex := (st.currentPoolIndex + 1) % st.numPools },
          ReconnAction.retry (st.reconnectDelay * 2 ^ 0)))
    ∧ (∀ b : ℕ, delaysFrom (reconnInit b) 8 =
        (List.range 8).map fun k => b * 2 ^ min (k + 1) 5) := by
  refine ⟨?_, ?_, ?_, ?_⟩
  · intro st hr ha hp hlt
    have hsw : ¬ (st.reconnectAttempts + 1 ≥ 10 / 2 ∧ st.numPools > 1) := by omega
    simp only [handleReconnect, MAX_RECONNECT_ATTEMPTS, hr, ha, and_self,
      not_true_eq_false, if_false, if_neg hsw]
    rw [if_neg (by omega : ¬ st.reconnectAttempts + 1 ≥ 10)]
  · intro st hr ha hp hge
    have hsw : ¬ (st.reconnectAttempts + 1 ≥ 10 / 2 ∧ st.numPools > 1) := by omega
    simp only [handleReconnect, MAX_RECONNECT_ATTEMPTS, hr, ha, and_self,
      not_true_eq_false, if_false, if_neg hsw]
    rw [if_pos (by omega : st.reconnectAttempts + 1 ≥ 10)]
  · intro st hr ha hp hge
    have hsw : st.reconnectAttempts + 1 ≥ 10 / 2 ∧ st.numPools > 1 := by
      constructor
      · omega
      · exact hp
    simp only [handleReconnect, MAX_RECONNECT_ATTEMPTS, hr, ha, and_self,
      not_true_eq_false, if_false, if_pos hsw]
    rw [if_neg (by omega : ¬ (0 : ℕ) ≥ 10), show (0 : ℕ) ⊓ 5 = 0 from rfl]
  · intro b
    rfl

/-- Witness for C6: the first failure of a fresh base-5 single-pool session
retries after `5 · 2^min(1, 5) = 10` seconds with the counter at 1. -/
theorem C6_witness :
    handleReconnect (reconnInit 5) =
      ({ reconnInit 5 with reconnectAttempts := (reconnInit 5).reconnectAttempts + 1 },
        ReconnAction.retry ((reconnInit 5).reconnectDelay *
          2 ^ min ((reconnInit 5).reconnectAttempts + 1) 5)) := by
  exact C6_reconnect_amended.1 (reconnInit 5) rfl rfl (by decide) (by decide)

/-! ## C8 — farm work distribution -/

/-- Counterexample to C8 as stated: when every worker is failed (active
count 0) `Farm::setWork` returns early — the previously stored valid
`current_work` does *not* become `previous_work`, nothing is updated and
nothing is delivered. -/
theorem C8_counterexample :
    farmStC8.currentWork.valid = true ∧
    farmSetWork farmStC8 WorkPackage.mkDefault = (farmStC8, []) ∧
    (farmSetWork farmStC8 WorkPackage.mkDefault).1.previousWork ≠ farmStC8.currentWork := by
  exact ⟨by decide, by decide, by decide⟩

/-- C8 (amended): whenever at least one worker is active (non-failed),
`Farm::setWork(wp')` with a previously valid `current_work` makes that work
the new `previous_work`; the distributed package's `totalDevices` is the
active worker count, and it is delivered to exactly the workers not in the
failed set.  With zero active workers the call returns with nothing changed
and nothing delivered. -/
theorem C8_setwork_amended :
    ∀ (st : FarmState) (work : WorkPackage),
      (0 < st.numMiners - st.failed.card →
        (st.currentWork.valid = true →
          (farmSetWork st work).1.previousWork = st.currentWork) ∧
        (farmSetWork st work).1.currentWork =
          { work with totalDevices := st.numMiners - st.failed.card } ∧
        (∀ (i : ℕ) (w : WorkPackage), ((i, w) ∈ (farmSetWork st work).2 ↔
          (i < st.numMiners ∧ i ∉ st.failed ∧
            w = { work with totalDevices := st.numMiners - st.failed.card }))))
      ∧ (st.numMiners - st.failed.card = 0 → farmSetWork st work = (st, [])) := by
  intro st work
  constructor
  · intro hactive
    have hne : ¬ (st.numMiners - st.failed.card = 0) := by omega
    refine ⟨?_, ?_, ?_⟩
    · intro hv
      simp only [farmSetWork, if_neg hne, hv, if_true, ite_true]
    · simp only [farmSetWork, if_neg hne]
    · intro i w
      simp only [farmSetWork, if_neg hne, List.mem_map, List.mem_filter,
        List.mem_range, Prod.mk.injEq, decide_eq_true_eq]
      constructor
      · rintro ⟨j, ⟨hj, hjf⟩, rfl, rfl⟩
        exact ⟨hj, hjf, rfl⟩
      · rintro ⟨hi, hif, rfl⟩
        exact ⟨i, ⟨hi, hif⟩, rfl, rfl⟩
  · intro h0
    simp only [farmSetWork, if_pos h0]

/-- Witness for C8: a two-worker farm with worker 1 failed and a valid
current work: the old work becomes the fallback and only worker 0 receives
the new package with `totalDevices = 1`. -/
theorem C8_witness :
    (farmSetWork
        { numMiners := 2
          failed := {1}
          currentWork := { WorkPackage.mkDefault with valid := true, jobId := "W" }
          previousWork := WorkPackage.mkDefault }
      { WorkPackage.mkDefault with jobId := "W2" }).1.previousWork =
      { WorkPackage.mkDefault with valid := true, jobId := "W" } ∧
    ((0 : ℕ), { WorkPackage.mkDefault with jobId := "W2", totalDevices := 1 }) ∈
      (farmSetWork
          { numMiners := 2
            failed := {1}
            currentWork := { WorkPackage.mkDefault with valid := true, jobId := "W" }
            previousWork := WorkPackage.mkDefault }
        { WorkPackage.mkDefault with jobId := "W2" }).2 := by
  constructor
  · exact ((C8_setwork_amended _ _).1 (by decide)).1 (by decide)
  · exact (((C8_setwork_amended _ _).1 (by decide)).2.2 0 _).mpr ⟨by decide, by decide, by decide⟩

/-! ## C9 — pool-target stickiness -/

/-- C9: a `mining.notify` carrying an explicit target sets `has_pool_target`
(and stores the target); `mining.set_difficulty` never changes the flag and,
while the flag is set, leaves both the stored target and the current work
untouched — in particular any sequence of `set_difficulty` events after such
a notify leaves the pool's target in force; only a notify without an
explicit target clears the flag, after which `set_difficulty` installs the
difficulty-derived target again. -/
theorem C9_pool_target_sticky :
    (∀ (st : StratumTargetState) (w : WorkPackage) (t : List ℕ),
      (notifyTarget st w (some t)).hasPoolTarget = true ∧
      (notifyTarget st w (some t)).target = t ∧
      (notifyTarget st w (some t)).currentWork.target = t)
    ∧ (∀ (st : StratumTargetState) (d : ℚ),
      (handleSetDifficulty st d).hasPoolTarget = st.hasPoolTarget)
    ∧ (∀ (st : StratumTargetState) (d : ℚ), st.hasPoolTarget = true →
      (handleSetDifficulty st d).target = st.target ∧
      (handleSetDifficulty st d).currentWork = st.currentWork)
    ∧ (∀ (st : StratumTargetState) (w : WorkPackage) (t : List ℕ) (ds : List ℚ),
      (ds.foldl handleSetDifficulty (notifyTarget st w (some t))).hasPoolTarget = true ∧
      (ds.foldl handleSetDifficulty (notifyTarget st w (some t))).target = t ∧
      (ds.foldl handleSetDifficulty (notifyTarget st w (some t))).currentWork.target = t)
    ∧ (∀ (st : StratumTargetState) (w : WorkPackage),
      (notifyTarget st w none).hasPoolTarget = false ∧
      (notifyTarget st w none).currentWork.target = st.target ∧
      (∀ d : ℚ, (handleSetDifficulty (notifyTarget st w none) d).target =
        difficultyToTarget d)) := by
  have hset : ∀ (s : StratumTargetState) (d : ℚ), s.hasPoolTarget = true →
      handleSetDifficulty s d = { s with difficulty := d } := by
    intro s d hs
    simp [handleSetDifficulty, hs]
  have hfold : ∀ (ds : List ℚ) (s : StratumTargetState), s.hasPoolTarget = true →
      (ds.foldl handleSetDifficulty s).hasPoolTarget = true ∧
      (ds.foldl handleSetDifficulty s).target = s.target ∧
      (ds.foldl handleSetDifficulty s).currentWork = s.currentWork := by
    intro ds
    induction ds with
    | nil => intro s hs; exact ⟨hs, rfl, rfl⟩
    | cons d ds ih =>
        intro s hs
        simp only [List.foldl_cons, hset s d hs]
        exact ih { s with difficulty := d } hs
  refine ⟨?_, ?_, ?_, ?_, ?_⟩
  · intro st w t
    refine ⟨rfl, rfl, rfl⟩
  · intro st d
    rfl
  · intro st d hs
    have h := hset st d hs
    rw [h]
    exact ⟨rfl, rfl⟩
  · intro st w t ds
    obtain ⟨h1, h2, h3⟩ := hfold ds (notifyTarget st w (some t)) rfl
    refine ⟨h1, h2, ?_⟩
    rw [h3]
    rfl
  · intro st w
    refine ⟨rfl, rfl, ?_⟩
    intro d
    simp [handleSetDifficulty, notifyTarget]

/-- Witness for C9: at a state with the pool-target flag set, a
`set_difficulty 2` leaves the stored target and the current work unchanged. -/
theorem C9_witness :
    (handleSetDifficulty stratumStC9 2).target = stratumStC9.target ∧
    (handleSetDifficulty stratumStC9 2).currentWork = stratumStC9.currentWork := by
  exact C9_pool_target_sticky.2.2.1 stratumStC9 2 (by decide)

end TosMiner
